import Mathlib

/-!
Verification development for the LanShare discovery and reliable-datagram
transport engine.  The repository ships the engine's documentation and the
frontend (`dist/main.js`); the Rust engine sources (`src-tauri/src/discovery.rs`,
`src-tauri/src/main.rs`) are not part of this snapshot, so the engine data
model and operations below are modelled from the specification.  The frontend
definitions at the end are translated directly from `dist/main.js`.
-/

namespace LanShare

/-- Modelled from the spec: the per-chunk checksum carried by a Message
Envelope and verified against the chunk payload (the spec fixes the
existence of a per-chunk checksum but not the algorithm; we use a concrete
32-bit polynomial rolling hash over the payload bytes). -/
def computeChecksum (payload : List Nat) : Nat :=
  payload.foldl (fun acc b => (acc * 31 + b) % 4294967296) 0

/-- Modelled from the spec: the Message Envelope wire unit for text payloads
(`MessageChunk` in the wire format): message-id, total-chunk-count, zero-based
chunk-index, chunk payload bytes, per-chunk checksum, sender identity,
timestamp. -/
structure Chunk where
  sender : String
  messageId : Nat
  chunkIndex : Nat
  totalChunks : Nat
  payload : List Nat
  checksum : Nat
  timestamp : Nat
deriving DecidableEq, Repr

/-- Modelled from the spec: the outcome of `accept_chunk`:
Accepted-Incomplete, Accepted-Complete(payload), Rejected-Checksum,
Rejected-Duplicate, plus the flagged duplicate-with-different-content case
(protocol violation, first copy kept). -/
inductive Outcome
  | acceptedIncomplete
  | acceptedComplete (payload : List Nat)
  | rejectedChecksum
  | rejectedDuplicate
  | duplicateMismatch
deriving DecidableEq, Repr

/-- Modelled from the spec: a Reassembly Entry keyed by (sender, message-id);
holds total-chunk-count, a sparse map of received chunk-indices to verified
payload bytes, and the first-seen timestamp. -/
structure ReassemblyEntry where
  totalChunks : Nat
  chunks : List (Nat × List Nat)
  firstSeen : Nat
deriving DecidableEq, Repr

/-- Key of a reassembly entry: (sender identity, message-id). -/
abbrev RKey := String × Nat

/-- Modelled from the spec: the Reassembly Table, a map from (sender,
message-id) to in-progress entries, embedded as an association list. -/
abbrev RTable := List (RKey × ReassemblyEntry)

/-- Association-list lookup of a reassembly entry by key. -/
def lookupEntry (t : RTable) (k : RKey) : Option ReassemblyEntry :=
  match t with
  | [] => none
  | (k2, e) :: rest => if k2 = k then some e else lookupEntry rest k

/-- Remove the entry with the given key from the table. -/
def removeEntry (t : RTable) (k : RKey) : RTable :=
  t.filter (fun ke => ke.1 ≠ k)

/-- Store an entry under a key (replacing any previous entry for that key). -/
def setEntry (t : RTable) (k : RKey) (e : ReassemblyEntry) : RTable :=
  (k, e) :: removeEntry t k

/-- Lookup of the payload stored at a chunk-index inside an entry. -/
def lookupChunk (chunks : List (Nat × List Nat)) (i : Nat) : Option (List Nat) :=
  match chunks with
  | [] => none
  | (j, p) :: rest => if j = i then some p else lookupChunk rest i

/-- Modelled from the spec: the number of distinct chunk-indices present in
an entry (completion compares this count with total-chunk-count). -/
def distinctIndexCount (chunks : List (Nat × List Nat)) : Nat :=
  (chunks.map Prod.fst).dedup.length

/-- Modelled from the spec: assembling a completed entry concatenates the
received chunks strictly in index order (index 0, 1, ..., total-1). -/
def assemble (e : ReassemblyEntry) : List Nat :=
  ((List.range e.totalChunks).map (fun i => (lookupChunk e.chunks i).getD [])).flatten

/-- Modelled from the spec: `accept_chunk(sender, message-id, chunk-index,
total-chunks, payload, checksum, now)` of the Reassembly Table (the Rust
implementation in `src-tauri/src/discovery.rs` is not in this snapshot).
Steps: verify the chunk checksum (mismatch rejects without insertion);
locate or create the (sender, message-id) entry recording total-chunks and
first-seen = now; an index already present with identical content is an
idempotent duplicate, with different content the first copy is kept and the
result flagged; otherwise insert, and when the number of distinct indices
equals total-chunks, assemble in index order, remove the entry and deliver
Accepted-Complete. -/
def accept_chunk (t : RTable) (c : Chunk) (now : Nat) : RTable × Outcome :=
  if computeChecksum c.payload ≠ c.checksum then (t, Outcome.rejectedChecksum)
  else
    let k : RKey := (c.sender, c.messageId)
    match lookupEntry t k with
    | none =>
        let e : ReassemblyEntry :=
          { totalChunks := c.totalChunks, chunks := [(c.chunkIndex, c.payload)], firstSeen := now }
        if distinctIndexCount e.chunks = e.totalChunks then
          (removeEntry t k, Outcome.acceptedComplete (assemble e))
        else (setEntry t k e, Outcome.acceptedIncomplete)
    | some e =>
        match lookupChunk e.chunks c.chunkIndex with
        | some p =>
            if p = c.payload then (t, Outcome.rejectedDuplicate)
            else (t, Outcome.duplicateMismatch)
        | none =>
            let e2 : ReassemblyEntry := { e with chunks := (c.chunkIndex, c.payload) :: e.chunks }
            if distinctIndexCount e2.chunks = e2.totalChunks then
              (removeEntry t k, Outcome.acceptedComplete (assemble e2))
            else (setEntry t k e2, Outcome.acceptedIncomplete)

/-- Modelled from the spec: the sending side splits a payload into
consecutive slices of at most `sz` bytes (the single-packet threshold), the
last slice possibly partial. -/
def chunksOf (sz : Nat) (l : List Nat) : List (List Nat) :=
  if h : l = [] then []
  else
    have hpos : 0 < l.length := List.length_pos.mpr h
    have hm : 1 ≤ max sz 1 := le_max_right sz 1
    have hlt : (l.drop (max sz 1)).length < l.length := by
      rw [List.length_drop]
      omega
    l.take (max sz 1) :: chunksOf sz (l.drop (max sz 1))
termination_by l.length

/-- Modelled from the spec size policy: payloads at or below the threshold
are sent as one chunk; larger payloads are split into threshold-sized
slices. -/
def splitPayload (payload : List Nat) (threshold : Nat) : List (List Nat) :=
  if payload.length ≤ threshold then [payload] else chunksOf threshold payload

/-- Modelled from the spec: the Message Envelope chunks produced by the
sending side for one payload: chunk i carries slice i, the zero-based index
i, the common total-chunk-count, and a checksum computed per chunk. -/
def makeChunks (sid : String) (mid : Nat) (payload : List Nat) (threshold : Nat)
    (now : Nat) : List Chunk :=
  let pieces := splitPayload payload threshold
  (List.range pieces.length).map fun i =>
    { sender := sid, messageId := mid, chunkIndex := i, totalChunks := pieces.length,
      payload := pieces.getD i [], checksum := computeChecksum (pieces.getD i []),
      timestamp := now }

/-- Feed a list of chunks to `accept_chunk` in the given arrival order,
returning the final table together with the outcome of the last call. -/
def acceptAll (t : RTable) (now : Nat) : List Chunk → RTable × Outcome
  | [] => (t, Outcome.acceptedIncomplete)
  | [c] => accept_chunk t c now
  | c :: c2 :: rest => acceptAll (accept_chunk t c now).1 now (c2 :: rest)

/-- Modelled from the spec: a Peer record of the Peer Registry: identity,
network address, announced listening port, optional display name, last-seen
timestamp. -/
structure Peer where
  id : String
  address : String
  port : Nat
  hostname : Option String
  lastSeen : Nat
deriving DecidableEq, Repr

/-- Modelled from the spec: `Registry.upsert` — create the peer on first
sight, otherwise refresh its last-seen timestamp, address, port and
hostname (the latest announcement wins). -/
def upsert (reg : List Peer) (pid addr : String) (port : Nat) (host : Option String)
    (now : Nat) : List Peer :=
  if reg.any (fun p => p.id = pid) then
    reg.map (fun p =>
      if p.id = pid then
        { p with address := addr, port := port, hostname := host, lastSeen := now }
      else p)
  else
    { id := pid, address := addr, port := port, hostname := host, lastSeen := now } :: reg

/-- Modelled from the spec: `remove_stale(now, timeout)` keeps exactly the
peers whose elapsed time since last-seen is < timeout and returns the
identities of the removed peers (elapsed ≥ timeout). -/
def remove_stale (reg : List Peer) (now timeout : Nat) : List Peer × List String :=
  ((reg.filter fun p => now - p.lastSeen < timeout),
   (reg.filter fun p => timeout ≤ now - p.lastSeen).map Peer.id)

/-- Modelled from the spec: `list_peers` returns a point-in-time snapshot of
the Registry. -/
def list_peers (reg : List Peer) : List Peer := reg

/-- Modelled from the spec: `peer_count`. -/
def peer_count (reg : List Peer) : Nat := reg.length

/-- Modelled from the spec: the target of `send_text` — one peer or all
known peers. -/
inductive SendTarget
  | onePeer (id : String)
  | allPeers
deriving DecidableEq, Repr

/-- Modelled from the spec error taxonomy: the typed failures `send_text`
returns to its caller. -/
inductive SendError
  | noPeersAvailable
  | messageTooLarge
deriving DecidableEq, Repr

/-- Modelled from the spec: resolve the target set of a send from the
Registry. -/
def resolveTarget (reg : List Peer) : SendTarget → List Peer
  | SendTarget.onePeer pid => reg.filter (fun p => p.id = pid)
  | SendTarget.allPeers => reg

/-- Modelled from the spec: `send_text(payload, target)` (the Rust
implementation is not in this snapshot).  A payload over the hard ceiling
is rejected with MessageTooLarge at the send boundary before any network
I/O; an "all peers" request whose target set resolves empty fails with
NoPeersAvailable; otherwise the payload is encoded as Message Envelope
chunks per the size policy and those chunks are the datagrams transmitted. -/
def send_text (sid : String) (mid : Nat) (payload : List Nat) (reg : List Peer)
    (target : SendTarget) (now threshold ceiling : Nat) :
    Except SendError (List Chunk) :=
  if ceiling < payload.length then Except.error SendError.messageTooLarge
  else
    let targets := resolveTarget reg target
    if target = SendTarget.allPeers ∧ targets = [] then
      Except.error SendError.noPeersAvailable
    else
      Except.ok (makeChunks sid mid payload threshold now)

/-- Modelled from the spec wire format: an inbound datagram already decoded
by the Presence Codec — either a Discovery Announcement or a Message
Envelope chunk. -/
inductive NetMessage
  | discovery (peerId : String) (address : String) (port : Nat)
      (hostname : Option String) (timestamp : Nat)
  | chunkMsg (c : Chunk)
deriving DecidableEq, Repr

/-- Modelled from the spec: the shared mutable state owned by the Discovery
Service — the Peer Registry and the Reassembly Table. -/
structure EngineState where
  registry : List Peer
  table : RTable
deriving DecidableEq, Repr

/-- Modelled from the spec: the Listener's routing of one decoded inbound
datagram: a Discovery Announcement carrying this instance's own identity is
discarded (self-loopback) without touching the Registry; one from another
identity is forwarded to `Registry.upsert`; a Message Envelope chunk is
forwarded to `accept_chunk`, and on completion the payload is emitted with
the sending peer's identity. -/
def handle_message (selfId : String) (st : EngineState) (m : NetMessage) (now : Nat) :
    EngineState × Option (String × List Nat) :=
  match m with
  | NetMessage.discovery pid addr port host _ts =>
      if pid = selfId then (st, none)
      else ({ st with registry := upsert st.registry pid addr port host now }, none)
  | NetMessage.chunkMsg c =>
      match accept_chunk st.table c now with
      | (t2, Outcome.acceptedComplete p) => ({ st with table := t2 }, some (c.sender, p))
      | (t2, _) => ({ st with table := t2 }, none)

/-- Modelled from the spec: removal of abandoned reassembly entries by the
Cleanup Sweeper — entries whose first-seen exceeds the reassembly timeout
are dropped. -/
def sweep_table (t : RTable) (now timeout : Nat) : RTable :=
  t.filter fun ke => now - ke.2.firstSeen < timeout

/-- Modelled from the spec: an externally observable event of the engine —
the Listener receiving a decoded datagram, or a Cleanup Sweeper tick with
the peer staleness timeout and the reassembly timeout. -/
inductive EngineEvent
  | recv (m : NetMessage) (now : Nat)
  | sweep (now peerTimeout reassemblyTimeout : Nat)
deriving DecidableEq, Repr

/-- Modelled from the spec: one engine step — route a received datagram, or
run a cleanup sweep over Registry and Reassembly Table. -/
def step_event (selfId : String) (st : EngineState) (e : EngineEvent) : EngineState :=
  match e with
  | EngineEvent.recv m now => (handle_message selfId st m now).1
  | EngineEvent.sweep now pt rt =>
      { registry := (remove_stale st.registry now pt).1,
        table := sweep_table st.table now rt }

/-- Modelled from the spec: the engine starts with an empty Registry and an
empty Reassembly Table. -/
def initState : EngineState := { registry := [], table := [] }

/-- Modelled from the spec: the reachable states of the engine — the result
of processing any finite sequence of events from the initial state. -/
def run_events (selfId : String) (es : List EngineEvent) : EngineState :=
  es.foldl (step_event selfId) initState

/-! Frontend (`dist/main.js`).  The definitions below embed the textarea
input handler installed by `setupTextAreaHandler` and the `waitForTauri`
polling loop. -/

/-- A backend invocation performed by the textarea input handler
(`dist/main.js`): `invoke("send_text_to_all_peers", ...)` or
`invoke("get_peer_count")`. -/
inductive UiCall
  | sendTextToAllPeers (text : String)
  | getPeerCount
deriving DecidableEq, Repr

/-- The environment of one `input` event in `dist/main.js`: whether the
Tauri `invoke` binding has been found, whether the send invocation throws
(with which message), and the peer count `get_peer_count` reports. -/
structure UiEnv where
  invokeAvailable : Bool
  sendFails : Bool
  errorMessage : String
  peerCount : Nat
deriving DecidableEq, Repr

/-- The frontend state the handler reads and writes: the `lastText` capture
and the status line set through `setStatus`. -/
structure UiState where
  lastText : String
  status : String
deriving DecidableEq, Repr

/-- The textarea `input` listener installed by `setupTextAreaHandler` in
`dist/main.js`: when the value changed and `invoke` is available it records
`lastText`, invokes `send_text_to_all_peers` with the current text, then
queries `get_peer_count` and sets the status to "No peers available - text
not sent" when the count is 0, or to a success message otherwise; a thrown
send error is caught and shown, skipping the peer-count query; otherwise the
event does nothing.  The returned list is the sequence of backend calls in
program order. -/
def textAreaInput (env : UiEnv) (st : UiState) (currentText : String) :
    UiState × List UiCall :=
  if currentText ≠ st.lastText ∧ env.invokeAvailable then
    let st1 : UiState := { st with lastText := currentText }
    if env.sendFails then
      ({ st1 with status := env.errorMessage },
       [UiCall.sendTextToAllPeers currentText])
    else if env.peerCount = 0 then
      ({ st1 with status := "No peers available - text not sent" },
       [UiCall.sendTextToAllPeers currentText, UiCall.getPeerCount])
    else
      ({ st1 with status := "Text sent to " ++ toString env.peerCount ++ " peer(s)" },
       [UiCall.sendTextToAllPeers currentText, UiCall.getPeerCount])
  else (st, [])

/-- The window probes `waitForTauri` performs on each attempt in
`dist/main.js`: `window.__TAURI_API__`, `window.__TAURI__`, and the global
`window.invoke`, possibly changing between attempts as scripts load. -/
structure TauriEnv where
  hasTauriApi : Nat → Bool
  hasTauri : Nat → Bool
  hasGlobalInvoke : Nat → Bool

/-- Whether any of the probed Tauri API locations exists at a given attempt
(`checkTauri` resolves as soon as one does). -/
def probeAt (env : TauriEnv) (attempt : Nat) : Bool :=
  env.hasTauriApi attempt || env.hasTauri attempt || env.hasGlobalInvoke attempt

/-- The result of the promise returned by `waitForTauri`. -/
inductive WaitResult
  | resolved
  | rejected (msg : String)
deriving DecidableEq, Repr

/-- The `checkTauri` polling loop of `waitForTauri` in `dist/main.js`:
increment the attempt counter, probe the Tauri API locations and resolve on
a hit; otherwise re-schedule while `attempts < maxAttempts`, and reject with
"Tauri APIs not available" after the last failed attempt.  The fuel argument
is the number of attempts still allowed (`maxAttempts - attempts`); the
returned number counts the checks performed. -/
def checkTauri (env : TauriEnv) (attempt : Nat) : Nat → WaitResult × Nat
  | 0 => (WaitResult.rejected "Tauri APIs not available", 0)
  | Nat.succ rem =>
      if probeAt env (attempt + 1) then (WaitResult.resolved, 1)
      else if rem = 0 then (WaitResult.rejected "Tauri APIs not available", 1)
      else
        let r := checkTauri env (attempt + 1) rem
        (r.1, r.2 + 1)

/-- `waitForTauri` from `dist/main.js`: the polling loop started at
`attempts = 0` with `maxAttempts = 50`. -/
def waitForTauri (env : TauriEnv) : WaitResult × Nat :=
  checkTauri env 0 50

/-- A chunk belonging to the transmission of one payload split into
`pieces`: correct sender, message-id, total-chunk-count, a checksum matching
its payload, and the payload equal to the slice at its index. -/
def goodChunk (sid : String) (mid : Nat) (pieces : List (List Nat)) (c : Chunk) : Prop :=
  c.sender = sid ∧ c.messageId = mid ∧ c.totalChunks = pieces.length ∧
  c.checksum = computeChecksum c.payload ∧ c.payload = pieces.getD c.chunkIndex []

/-- Invariant of an in-progress reassembly entry for a payload split into
`pieces`: the recorded total matches and every stored chunk holds the slice
at its index. -/
def entryInv (pieces : List (List Nat)) (e : ReassemblyEntry) : Prop :=
  e.totalChunks = pieces.length ∧ ∀ pr ∈ e.chunks, pr.2 = pieces.getD pr.1 []

/-! Lemmas about the sending-side split. -/

/-- `chunksOf` on the empty payload yields no chunk. -/
theorem chunksOf_nil (sz : Nat) : chunksOf sz [] = [] := by
  rw [chunksOf]
  simp

/-- Unfolding of `chunksOf` on a nonempty payload. -/
theorem chunksOf_cons_eq (sz : Nat) (l : List Nat) (h : l ≠ []) :
    chunksOf sz l = l.take (max sz 1) :: chunksOf sz (l.drop (max sz 1)) := by
  rw [chunksOf]
  simp [h]

/-- A nonempty payload yields at least one chunk. -/
theorem chunksOf_ne_nil (sz : Nat) (l : List Nat) (h : l ≠ []) : chunksOf sz l ≠ [] := by
  rw [chunksOf_cons_eq sz l h]
  exact List.cons_ne_nil _ _

/-- Concatenating the slices produced by `chunksOf` restores the payload
(bounded-length version for the induction). -/
theorem chunksOf_flatten_aux (sz : Nat) :
    ∀ (n : Nat) (l : List Nat), l.length ≤ n → (chunksOf sz l).flatten = l := by
  intro n
  induction n with
  | zero =>
      intro l hl
      have hnil : l = [] := List.eq_nil_of_length_eq_zero (Nat.le_zero.mp hl)
      subst hnil
      simp [chunksOf_nil]
  | succ n ih =>
      intro l hl
      by_cases h : l = []
      · subst h
        simp [chunksOf_nil]
      · rw [chunksOf_cons_eq sz l h, List.flatten_cons]
        have hm : 1 ≤ max sz 1 := le_max_right sz 1
        have hpos : 0 < l.length := List.length_pos.mpr h
        have hlen : (l.drop (max sz 1)).length ≤ n := by
          rw [List.length_drop]
          omega
        rw [ih _ hlen, List.take_append_drop]

/-- Concatenating the slices produced by `chunksOf` restores the payload. -/
theorem chunksOf_flatten (sz : Nat) (l : List Nat) : (chunksOf sz l).flatten = l :=
  chunksOf_flatten_aux sz l.length l le_rfl

/-- The number of slices produced by `chunksOf` (bounded-length version for
the induction). -/
theorem chunksOf_length_aux (sz : Nat) :
    ∀ (n : Nat) (l : List Nat), l.length ≤ n → l ≠ [] →
      (chunksOf sz l).length = (l.length - 1) / max sz 1 + 1 := by
  intro n
  induction n with
  | zero =>
      intro l hl h
      exact absurd (List.eq_nil_of_length_eq_zero (Nat.le_zero.mp hl)) h
  | succ n ih =>
      intro l hl h
      rw [chunksOf_cons_eq sz l h]
      have hm : 1 ≤ max sz 1 := le_max_right sz 1
      have hpos : 0 < l.length := List.length_pos.mpr h
      by_cases hle : l.length ≤ max sz 1
      · have hdrop : l.drop (max sz 1) = [] := List.drop_eq_nil_of_le hle
        rw [hdrop, chunksOf_nil]
        have h0 : (l.length - 1) / max sz 1 = 0 := Nat.div_eq_of_lt (by omega)
        simp [h0]
      · have hne : l.drop (max sz 1) ≠ [] := by
          intro hc
          have hlc := congrArg List.length hc
          rw [List.length_drop] at hlc
          simp at hlc
          omega
        have hlen : (l.drop (max sz 1)).length ≤ n := by
          rw [List.length_drop]
          omega
        rw [List.length_cons, ih _ hlen hne, List.length_drop]
        have heq : l.length - 1 = (l.length - max sz 1 - 1) + max sz 1 := by omega
        rw [heq, Nat.add_div_right _ (by omega)]

/-- The number of slices produced by `chunksOf`. -/
theorem chunksOf_length (sz : Nat) (l : List Nat) (h : l ≠ []) :
    (chunksOf sz l).length = (l.length - 1) / max sz 1 + 1 :=
  chunksOf_length_aux sz l.length l le_rfl h

/-- A payload at or below the threshold is one single slice. -/
theorem splitPayload_small (P : List Nat) (th : Nat) (h : P.length ≤ th) :
    splitPayload P th = [P] := by
  rw [splitPayload, if_pos h]

/-- A payload over the threshold is split by `chunksOf`. -/
theorem splitPayload_large (P : List Nat) (th : Nat) (h : th < P.length) :
    splitPayload P th = chunksOf th P := by
  rw [splitPayload, if_neg (by omega)]

/-- Concatenating the slices of `splitPayload` restores the payload. -/
theorem splitPayload_flatten (P : List Nat) (th : Nat) :
    (splitPayload P th).flatten = P := by
  rw [splitPayload]
  split
  · simp
  · exact chunksOf_flatten th P

/-- A nonempty payload splits into at least one slice. -/
theorem splitPayload_ne_nil (P : List Nat) (th : Nat) (h : P ≠ []) :
    splitPayload P th ≠ [] := by
  rw [splitPayload]
  split
  · exact List.cons_ne_nil _ _
  · exact chunksOf_ne_nil th P h

/-! Lemmas about the chunk store of a reassembly entry. -/

/-- Looking up an index that is not among the stored indices fails. -/
theorem lookupChunk_eq_none (i : Nat) :
    ∀ (chunks : List (Nat × List Nat)), i ∉ chunks.map Prod.fst →
      lookupChunk chunks i = none := by
  intro chunks
  induction chunks with
  | nil => intro _; rfl
  | cons pr rest ih =>
      obtain ⟨j, p⟩ := pr
      intro h
      simp only [List.map_cons, List.mem_cons] at h
      push_neg at h
      rw [lookupChunk, if_neg (Ne.symm h.1)]
      exact ih h.2

/-- Looking up a stored index returns its payload when indices are
duplicate-free. -/
theorem lookupChunk_of_mem (i : Nat) (v : List Nat) :
    ∀ (chunks : List (Nat × List Nat)), (chunks.map Prod.fst).Nodup →
      (i, v) ∈ chunks → lookupChunk chunks i = some v := by
  intro chunks
  induction chunks with
  | nil => intro _ h; cases h
  | cons pr rest ih =>
      obtain ⟨j, p⟩ := pr
      intro hnd hmem
      simp only [List.map_cons, List.nodup_cons] at hnd
      rcases List.mem_cons.mp hmem with heq | hmemr
      · have hij : i = j := congrArg Prod.fst heq
        have hvp : v = p := congrArg Prod.snd heq
        rw [lookupChunk, if_pos hij.symm, hvp]
      · have hjne : j ≠ i := by
          intro hji
          subst hji
          exact hnd.1 (List.mem_map.mpr ⟨(j, v), hmemr, rfl⟩)
        rw [lookupChunk, if_neg hjne]
        exact ih hnd.2 hmemr

/-- With duplicate-free indices, the distinct-index count is the number of
stored chunks. -/
theorem distinctIndexCount_of_nodup (chunks : List (Nat × List Nat))
    (h : (chunks.map Prod.fst).Nodup) : distinctIndexCount chunks = chunks.length := by
  rw [distinctIndexCount, List.dedup_eq_self.mpr h, List.length_map]

/-- Assembling an entry whose stored indices are a permutation of
`0, ..., pieces.length - 1` and whose stored payloads are the corresponding
slices yields the concatenation of all slices. -/
theorem assemble_eq_flatten (pieces : List (List Nat)) (e : ReassemblyEntry)
    (htot : e.totalChunks = pieces.length)
    (hperm : (e.chunks.map Prod.fst).Perm (List.range pieces.length))
    (hval : ∀ pr ∈ e.chunks, pr.2 = pieces.getD pr.1 []) :
    assemble e = pieces.flatten := by
  rw [assemble, htot]
  congr 1
  apply List.ext_getElem
  · simp
  · intro n h1 h2
    simp only [List.getElem_map, List.getElem_range]
    have hn : n < pieces.length := by simpa using h2
    have hnd : (e.chunks.map Prod.fst).Nodup :=
      hperm.nodup_iff.mpr (List.nodup_range _)
    have hmemn : n ∈ e.chunks.map Prod.fst :=
      hperm.mem_iff.mpr (List.mem_range.mpr hn)
    obtain ⟨pr, hpr, hfst⟩ := List.mem_map.mp hmemn
    have hpair : (n, pr.2) ∈ e.chunks := by
      have : pr = (n, pr.2) := by
        rw [← hfst]
      rw [← this]
      exact hpr
    rw [lookupChunk_of_mem n pr.2 e.chunks hnd hpair]
    rw [Option.getD_some, hval pr hpr, hfst]
    exact List.getD_eq_getElem pieces [] hn

/-! Behaviour of `accept_chunk` during an in-order-free reassembly run. -/

/-- Accepting a well-formed, not-yet-seen chunk into the singleton table
holding its entry inserts it, completing when the distinct-index count
reaches the total. -/
theorem accept_chunk_singleton (sid : String) (mid : Nat) (pieces : List (List Nat))
    (e : ReassemblyEntry) (c : Chunk) (now : Nat)
    (hg : goodChunk sid mid pieces c)
    (hnot : c.chunkIndex ∉ e.chunks.map Prod.fst) :
    accept_chunk [((sid, mid), e)] c now =
      (if distinctIndexCount ((c.chunkIndex, c.payload) :: e.chunks) = e.totalChunks then
        ([], Outcome.acceptedComplete (assemble
          { totalChunks := e.totalChunks,
            chunks := (c.chunkIndex, c.payload) :: e.chunks,
            firstSeen := e.firstSeen }))
      else
        ([((sid, mid),
           { totalChunks := e.totalChunks,
             chunks := (c.chunkIndex, c.payload) :: e.chunks,
             firstSeen := e.firstSeen })],
         Outcome.acceptedIncomplete)) := by
  obtain ⟨hs, hm, _ht, hc, _hp⟩ := hg
  rw [accept_chunk, if_neg (fun hne => hne hc.symm)]
  have hkey : lookupEntry [((sid, mid), e)] (c.sender, c.messageId) = some e := by
    rw [lookupEntry, if_pos (by rw [hs, hm])]
  simp only [hkey, lookupChunk_eq_none c.chunkIndex e.chunks hnot]
  have hset : setEntry [((sid, mid), e)] (c.sender, c.messageId)
      { totalChunks := e.totalChunks,
        chunks := (c.chunkIndex, c.payload) :: e.chunks,
        firstSeen := e.firstSeen } =
      [((sid, mid),
        { totalChunks := e.totalChunks,
          chunks := (c.chunkIndex, c.payload) :: e.chunks,
          firstSeen := e.firstSeen })] := by
    rw [setEntry, removeEntry]
    simp [hs, hm]
  have hrem : removeEntry [((sid, mid), e)] (c.sender, c.messageId) = [] := by
    rw [removeEntry]
    simp [hs, hm]
  split
  · rw [hrem]
  · rw [hset]

/-- Accepting a well-formed chunk into the empty table creates the entry for
its message, completing at once when the total-chunk-count is 1. -/
theorem accept_chunk_emptyTable (sid : String) (mid : Nat) (pieces : List (List Nat))
    (c : Chunk) (now : Nat) (hg : goodChunk sid mid pieces c) :
    accept_chunk [] c now =
      (if 1 = c.totalChunks then
        ([], Outcome.acceptedComplete (assemble
          { totalChunks := c.totalChunks,
            chunks := [(c.chunkIndex, c.payload)], firstSeen := now }))
      else
        ([((sid, mid),
           { totalChunks := c.totalChunks,
             chunks := [(c.chunkIndex, c.payload)], firstSeen := now })],
         Outcome.acceptedIncomplete)) := by
  obtain ⟨hs, hm, _ht, hc, _hp⟩ := hg
  rw [accept_chunk, if_neg (fun hne => hne hc.symm)]
  have hcount : distinctIndexCount [(c.chunkIndex, c.payload)] = 1 := by
    rw [distinctIndexCount]
    simp
  have hkey : lookupEntry ([] : RTable) (c.sender, c.messageId) = none := rfl
  simp only [hkey, hcount]
  have hset : setEntry ([] : RTable) (c.sender, c.messageId)
      { totalChunks := c.totalChunks,
        chunks := [(c.chunkIndex, c.payload)], firstSeen := now } =
      [((sid, mid),
        { totalChunks := c.totalChunks,
          chunks := [(c.chunkIndex, c.payload)], firstSeen := now })] := by
    rw [setEntry, removeEntry, hs, hm]
    rfl
  have hrem : removeEntry ([] : RTable) (c.sender, c.messageId) = [] := rfl
  split
  · rw [hrem]
  · rw [hset]

/-- Feeding the remaining chunks of a payload, in any order, into the table
holding the partially filled entry completes the reassembly with the full
payload, and the entry is removed. -/
theorem acceptAll_completes (sid : String) (mid : Nat) (pieces : List (List Nat))
    (now : Nat) :
    ∀ (ds : List Chunk) (e : ReassemblyEntry),
      ds ≠ [] →
      entryInv pieces e →
      (∀ c ∈ ds, goodChunk sid mid pieces c) →
      (e.chunks.map Prod.fst ++ ds.map Chunk.chunkIndex).Perm
        (List.range pieces.length) →
      acceptAll [((sid, mid), e)] now ds =
        ([], Outcome.acceptedComplete pieces.flatten) := by
  intro ds
  induction ds with
  | nil => intro e h; cases h rfl
  | cons c rest ih =>
      intro e _ hinv hgood hperm
      have hg : goodChunk sid mid pieces c := hgood c (List.mem_cons_self c rest)
      have hndall : (e.chunks.map Prod.fst ++ (c :: rest).map Chunk.chunkIndex).Nodup :=
        hperm.nodup_iff.mpr (List.nodup_range _)
      have hnot : c.chunkIndex ∉ e.chunks.map Prod.fst := by
        rw [List.nodup_append] at hndall
        intro hmem
        exact hndall.2.2 hmem (by simp)
      have hperm2 :
          ((c.chunkIndex :: e.chunks.map Prod.fst) ++ rest.map Chunk.chunkIndex).Perm
            (List.range pieces.length) := by
        refine List.Perm.trans ?_ hperm
        simp only [List.cons_append, List.map_cons]
        exact List.perm_middle.symm
      have hnd2 : ((c.chunkIndex :: e.chunks.map Prod.fst) ++
          rest.map Chunk.chunkIndex).Nodup :=
        hperm2.nodup_iff.mpr (List.nodup_range _)
      have hndkeys : (c.chunkIndex :: e.chunks.map Prod.fst).Nodup :=
        (List.nodup_append.mp hnd2).1
      have hlens : (c.chunkIndex :: e.chunks.map Prod.fst).length +
          (rest.map Chunk.chunkIndex).length = pieces.length := by
        have := hperm2.length_eq
        rw [List.length_append, List.length_range] at this
        exact this
      have hinv2 : entryInv pieces
          { totalChunks := e.totalChunks,
            chunks := (c.chunkIndex, c.payload) :: e.chunks,
            firstSeen := e.firstSeen } := by
        refine ⟨hinv.1, ?_⟩
        intro pr hpr
        rcases List.mem_cons.mp hpr with heq | hmemr
        · rw [heq]
          exact hg.2.2.2.2
        · exact hinv.2 pr hmemr
      cases rest with
      | nil =>
          have hcomplete :
              distinctIndexCount ((c.chunkIndex, c.payload) :: e.chunks) =
                e.totalChunks := by
            have hcnt := distinctIndexCount_of_nodup
              ((c.chunkIndex, c.payload) :: e.chunks) (by simpa using hndkeys)
            rw [hcnt, hinv.1]
            simp only [List.map_nil, List.length_nil] at hlens
            simpa using hlens
          rw [acceptAll, accept_chunk_singleton sid mid pieces e c now hg hnot,
            if_pos hcomplete]
          have hasm := assemble_eq_flatten pieces
            { totalChunks := e.totalChunks,
              chunks := (c.chunkIndex, c.payload) :: e.chunks,
              firstSeen := e.firstSeen }
            (hinv.1)
            (by
              simp only [List.map_cons]
              refine List.Perm.trans ?_ hperm2
              simp)
            hinv2.2
          rw [hasm]
      | cons c2 rest2 =>
          have hincomplete :
              distinctIndexCount ((c.chunkIndex, c.payload) :: e.chunks) ≠
                e.totalChunks := by
            have hcnt := distinctIndexCount_of_nodup
              ((c.chunkIndex, c.payload) :: e.chunks) (by simpa using hndkeys)
            rw [hcnt, hinv.1]
            intro hcontra
            rw [List.length_cons] at hlens
            simp only [List.length_map, List.length_cons] at hlens
            simp only [List.length_cons] at hcontra
            omega
          rw [acceptAll, accept_chunk_singleton sid mid pieces e c now hg hnot,
            if_neg hincomplete]
          exact ih _ (List.cons_ne_nil c2 rest2) hinv2
            (fun d hd => hgood d (List.mem_cons_of_mem c hd))
            (by simpa using hperm2)

/-! Lemmas about the chunks produced by the sending side. -/

/-- The sender produces one chunk per slice. -/
theorem makeChunks_length (sid : String) (mid : Nat) (P : List Nat) (th now : Nat) :
    (makeChunks sid mid P th now).length = (splitPayload P th).length := by
  simp [makeChunks]

/-- The chunk indices produced by the sender are exactly `0, ..., n-1`. -/
theorem makeChunks_map_chunkIndex (sid : String) (mid : Nat) (P : List Nat)
    (th now : Nat) :
    (makeChunks sid mid P th now).map Chunk.chunkIndex =
      List.range (splitPayload P th).length := by
  simp only [makeChunks, List.map_map]
  have : (Chunk.chunkIndex ∘ fun i =>
      ({ sender := sid, messageId := mid, chunkIndex := i,
         totalChunks := (splitPayload P th).length,
         payload := (splitPayload P th).getD i [],
         checksum := computeChecksum ((splitPayload P th).getD i []),
         timestamp := now } : Chunk)) = fun i => i := rfl
  rw [this, List.map_id']

/-- Every chunk produced by the sender is well-formed for its payload. -/
theorem makeChunks_good (sid : String) (mid : Nat) (P : List Nat) (th now : Nat) :
    ∀ c ∈ makeChunks sid mid P th now, goodChunk sid mid (splitPayload P th) c := by
  intro c hc
  simp only [makeChunks, List.mem_map, List.mem_range] at hc
  obtain ⟨i, _hi, rfl⟩ := hc
  exact ⟨rfl, rfl, rfl, rfl, rfl⟩

/-! Claim theorems. -/

/-- C1: for every payload P with threshold < size(P) ≤ ceiling, splitting P
into chunks on the sending side and feeding those chunks to `accept_chunk`
in any permutation of arrival order ends with Accepted-Complete carrying a
payload byte-for-byte equal to P; in particular a 3000-byte payload with a
1100-byte threshold yields 3 chunks (and, being covered by the universal
statement, any arrival order such as [2,0,1] reassembles it exactly). -/
theorem accept_chunk_reassembles_any_order :
    (∀ (sid : String) (mid : Nat) (P : List Nat) (threshold ceiling now now2 : Nat)
       (ds : List Chunk),
       threshold < P.length → P.length ≤ ceiling →
       ds.Perm (makeChunks sid mid P threshold now) →
       acceptAll [] now2 ds = ([], Outcome.acceptedComplete P)) ∧
    (∀ (sid : String) (mid : Nat) (P : List Nat) (now : Nat),
       P.length = 3000 → (makeChunks sid mid P 1100 now).length = 3) := by
  constructor
  · intro sid mid P threshold ceiling now now2 ds hth _hceil hperm
    have hPne : P ≠ [] := by
      intro h
      rw [h] at hth
      simp at hth
    have hflat : (splitPayload P threshold).flatten = P := splitPayload_flatten P threshold
    have hgood : ∀ c ∈ ds, goodChunk sid mid (splitPayload P threshold) c :=
      fun c hc => makeChunks_good sid mid P threshold now c (hperm.mem_iff.mp hc)
    have hdsidx : (ds.map Chunk.chunkIndex).Perm
        (List.range (splitPayload P threshold).length) := by
      have h1 := hperm.map Chunk.chunkIndex
      rw [makeChunks_map_chunkIndex] at h1
      exact h1
    have hdslen : ds.length = (splitPayload P threshold).length := by
      rw [hperm.length_eq, makeChunks_length]
    have hn1 : 1 ≤ (splitPayload P threshold).length :=
      List.length_pos.mpr (splitPayload_ne_nil P threshold hPne)
    cases ds with
    | nil =>
        exfalso
        rw [List.length_nil] at hdslen
        omega
    | cons d rest =>
        have hd : goodChunk sid mid (splitPayload P threshold) d :=
          hgood d (List.mem_cons_self d rest)
        cases rest with
        | nil =>
            have hn : (splitPayload P threshold).length = 1 := by
              rw [List.length_cons, List.length_nil] at hdslen
              omega
            rw [acceptAll,
              accept_chunk_emptyTable sid mid (splitPayload P threshold) d now2 hd,
              if_pos (by rw [hd.2.2.1, hn])]
            have hasm := assemble_eq_flatten (splitPayload P threshold)
              { totalChunks := d.totalChunks,
                chunks := [(d.chunkIndex, d.payload)], firstSeen := now2 }
              hd.2.2.1
              (by simpa using hdsidx)
              (by
                intro pr hpr
                rcases List.mem_cons.mp hpr with heq | hmem
                · rw [heq]
                  exact hd.2.2.2.2
                · cases hmem)
            rw [hasm, hflat]
        | cons c2 rest2 =>
            have hn2 : 2 ≤ (splitPayload P threshold).length := by
              rw [List.length_cons, List.length_cons] at hdslen
              omega
            have hne1 : ¬(1 = d.totalChunks) := by
              intro hcontra
              rw [hd.2.2.1] at hcontra
              omega
            rw [acceptAll,
              accept_chunk_emptyTable sid mid (splitPayload P threshold) d now2 hd,
              if_neg hne1]
            have hrun := acceptAll_completes sid mid (splitPayload P threshold) now2
              (c2 :: rest2)
              { totalChunks := d.totalChunks,
                chunks := [(d.chunkIndex, d.payload)], firstSeen := now2 }
              (List.cons_ne_nil c2 rest2)
              ⟨hd.2.2.1, by
                intro pr hpr
                rcases List.mem_cons.mp hpr with heq | hmem
                · rw [heq]
                  exact hd.2.2.2.2
                · cases hmem⟩
              (fun c hc => hgood c (List.mem_cons_of_mem d hc))
              (by simpa using hdsidx)
            rw [hflat] at hrun
            exact hrun
  · intro sid mid P now hlen
    have hPne : P ≠ [] := by
      intro h
      rw [h] at hlen
      simp at hlen
    rw [makeChunks_length, splitPayload_large P 1100 (by omega),
      chunksOf_length 1100 P hPne, hlen]
    norm_num

/-- Witness for C1: a concrete 3000-byte payload, split with the default
1100-byte threshold and delivered fully out of order, reassembles exactly. -/
theorem accept_chunk_reassembles_any_order_witness :
    1100 < (List.replicate 3000 65).length ∧
    (List.replicate 3000 65).length ≤ 262144 ∧
    acceptAll [] 5 ((makeChunks "peer-a" 7 (List.replicate 3000 65) 1100 1).reverse) =
      ([], Outcome.acceptedComplete (List.replicate 3000 65)) :=
  ⟨by rw [List.length_replicate]; norm_num,
   by rw [List.length_replicate]; norm_num,
   accept_chunk_reassembles_any_order.1 "peer-a" 7 (List.replicate 3000 65)
     1100 262144 1 5 _ (by rw [List.length_replicate]; norm_num)
     (by rw [List.length_replicate]; norm_num) (List.reverse_perm _)⟩

/-- C2: a chunk whose checksum does not match its payload is rejected with
Rejected-Checksum and not inserted (the table is left unchanged), and no
`accept_chunk` call that delivers Accepted-Complete ever accepted a
checksum-mismatched chunk. -/
theorem accept_chunk_rejects_bad_checksum :
    ∀ (t : RTable) (c : Chunk) (now : Nat),
      (computeChecksum c.payload ≠ c.checksum →
        accept_chunk t c now = (t, Outcome.rejectedChecksum)) ∧
      (∀ (t2 : RTable) (p : List Nat),
        accept_chunk t c now = (t2, Outcome.acceptedComplete p) →
        computeChecksum c.payload = c.checksum) := by
  intro t c now
  constructor
  · intro h
    rw [accept_chunk, if_pos h]
  · intro t2 p hcall
    by_contra hne
    rw [accept_chunk, if_pos hne] at hcall
    have hsnd := congrArg Prod.snd hcall
    simp at hsnd

/-- Witness for C2: a chunk carrying checksum 1027 over a payload whose
checksum is 1026 is rejected even though it would complete a 1-chunk
message, and the empty table stays empty. -/
theorem accept_chunk_rejects_bad_checksum_witness :
    accept_chunk []
      { sender := "peer-b", messageId := 3, chunkIndex := 0, totalChunks := 1,
        payload := [1, 2, 3], checksum := 1027, timestamp := 0 } 9 =
      ([], Outcome.rejectedChecksum) :=
  (accept_chunk_rejects_bad_checksum []
    { sender := "peer-b", messageId := 3, chunkIndex := 0, totalChunks := 1,
      payload := [1, 2, 3], checksum := 1027, timestamp := 0 } 9).1 (by decide)

/-- C3: re-delivering an already-accepted chunk (same sender, message-id,
chunk-index, identical content) returns Rejected-Duplicate and leaves the
table — hence the stored chunks and the eventually assembled payload —
unchanged: an idempotent no-op. -/
theorem accept_chunk_duplicate_noop :
    ∀ (t : RTable) (c : Chunk) (now : Nat) (e : ReassemblyEntry),
      lookupEntry t (c.sender, c.messageId) = some e →
      lookupChunk e.chunks c.chunkIndex = some c.payload →
      computeChecksum c.payload = c.checksum →
      accept_chunk t c now = (t, Outcome.rejectedDuplicate) := by
  intro t c now e hentry hchunk hchk
  rw [accept_chunk, if_neg (fun hne => hne hchk)]
  simp only [hentry, hchunk]
  simp

/-- Witness for C3: re-delivering the already-stored chunk 0 of a 2-chunk
message is reported duplicate and the table is unchanged. -/
theorem accept_chunk_duplicate_noop_witness :
    accept_chunk
      [(("peer-c", 4), { totalChunks := 2, chunks := [(0, [9, 9])], firstSeen := 0 })]
      { sender := "peer-c", messageId := 4, chunkIndex := 0, totalChunks := 2,
        payload := [9, 9], checksum := computeChecksum [9, 9], timestamp := 3 } 8 =
      ([(("peer-c", 4), { totalChunks := 2, chunks := [(0, [9, 9])], firstSeen := 0 })],
       Outcome.rejectedDuplicate) :=
  accept_chunk_duplicate_noop
    [(("peer-c", 4), { totalChunks := 2, chunks := [(0, [9, 9])], firstSeen := 0 })]
    { sender := "peer-c", messageId := 4, chunkIndex := 0, totalChunks := 2,
      payload := [9, 9], checksum := computeChecksum [9, 9], timestamp := 3 } 8
    { totalChunks := 2, chunks := [(0, [9, 9])], firstSeen := 0 }
    (by decide) (by decide) rfl

/-- C4: a payload at or below the single-packet threshold is encoded by
`send_text` as exactly one Message Envelope chunk whose total-chunk-count
field equals 1. -/
theorem send_text_single_chunk :
    ∀ (sid : String) (mid : Nat) (P : List Nat) (reg : List Peer)
      (target : SendTarget) (now threshold ceiling : Nat),
      P.length ≤ threshold → threshold ≤ ceiling →
      ¬(target = SendTarget.allPeers ∧ resolveTarget reg target = []) →
      ∃ c : Chunk,
        send_text sid mid P reg target now threshold ceiling = Except.ok [c] ∧
        c.totalChunks = 1 := by
  intro sid mid P reg target now threshold ceiling h1 h2 h3
  have hnot : ¬(ceiling < P.length) := by omega
  have hmk : makeChunks sid mid P threshold now =
      [{ sender := sid, messageId := mid, chunkIndex := 0, totalChunks := 1,
         payload := P, checksum := computeChecksum P, timestamp := now }] := by
    have hr : List.range 1 = [0] := rfl
    simp [makeChunks, splitPayload_small P threshold h1, hr]
  refine ⟨{ sender := sid, messageId := mid, chunkIndex := 0, totalChunks := 1,
            payload := P, checksum := computeChecksum P, timestamp := now }, ?_, rfl⟩
  simp only [send_text]
  rw [if_neg hnot, if_neg h3, hmk]

/-- Witness for C4: a 2-byte payload with the default thresholds is sent to
one known peer as a single chunk with total-chunk-count 1. -/
theorem send_text_single_chunk_witness :
    ∃ c : Chunk,
      send_text "peer-a" 0 [1, 2] [⟨"peer-b", "10.0.0.2", 7878, none, 0⟩]
        SendTarget.allPeers 0 1100 262144 = Except.ok [c] ∧
      c.totalChunks = 1 :=
  send_text_single_chunk "peer-a" 0 [1, 2] [⟨"peer-b", "10.0.0.2", 7878, none, 0⟩]
    SendTarget.allPeers 0 1100 262144 (by norm_num) (by norm_num) (by decide)

/-- C5: a payload over the hard ceiling makes `send_text` fail with
MessageTooLarge; the failure is the returned value of the send call, before
any chunk is produced for transmission. -/
theorem send_text_too_large_no_send :
    ∀ (sid : String) (mid : Nat) (P : List Nat) (reg : List Peer)
      (target : SendTarget) (now threshold ceiling : Nat),
      ceiling < P.length →
      send_text sid mid P reg target now threshold ceiling =
        Except.error SendError.messageTooLarge := by
  intro sid mid P reg target now threshold ceiling h
  rw [send_text, if_pos h]

/-- Witness for C5: a 3-byte payload over a 2-byte ceiling is rejected with
MessageTooLarge. -/
theorem send_text_too_large_no_send_witness :
    send_text "peer-a" 1 [1, 2, 3] [⟨"peer-b", "10.0.0.2", 7878, none, 0⟩]
      SendTarget.allPeers 0 1 2 = Except.error SendError.messageTooLarge :=
  send_text_too_large_no_send "peer-a" 1 [1, 2, 3]
    [⟨"peer-b", "10.0.0.2", 7878, none, 0⟩] SendTarget.allPeers 0 1 2 (by norm_num)

/-- C6: `remove_stale(now, timeout)` removes exactly the peers whose
elapsed time since last-seen is at least the timeout: a peer survives into
`list_peers` iff its elapsed time is strictly below the timeout, and every
removed peer's identity is reported. -/
theorem remove_stale_exact :
    ∀ (reg : List Peer) (now timeout : Nat) (p : Peer),
      (p ∈ list_peers (remove_stale reg now timeout).1 ↔
        p ∈ reg ∧ now - p.lastSeen < timeout) ∧
      (p ∈ reg → timeout ≤ now - p.lastSeen →
        p.id ∈ (remove_stale reg now timeout).2) := by
  intro reg now timeout p
  constructor
  · rw [remove_stale, list_peers]
    simp [List.mem_filter]
  · intro hmem hstale
    rw [remove_stale]
    simp only [List.mem_map]
    exact ⟨p, List.mem_filter.mpr ⟨hmem, by simpa using hstale⟩, rfl⟩

/-- Witness for C6 with the default 30s timeout: a peer last seen 30s ago is
absent from `list_peers` after the sweep and its identity is reported
removed, while a peer re-announced 29s ago remains present. -/
theorem remove_stale_exact_witness :
    (⟨"stale", "10.0.0.2", 7878, none, 70⟩ : Peer) ∉
      list_peers (remove_stale
        [⟨"stale", "10.0.0.2", 7878, none, 70⟩, ⟨"fresh", "10.0.0.3", 7878, none, 71⟩]
        100 30).1 ∧
    (⟨"fresh", "10.0.0.3", 7878, none, 71⟩ : Peer) ∈
      list_peers (remove_stale
        [⟨"stale", "10.0.0.2", 7878, none, 70⟩, ⟨"fresh", "10.0.0.3", 7878, none, 71⟩]
        100 30).1 ∧
    "stale" ∈ (remove_stale
        [⟨"stale", "10.0.0.2", 7878, none, 70⟩, ⟨"fresh", "10.0.0.3", 7878, none, 71⟩]
        100 30).2 := by
  refine ⟨?_, ?_, ?_⟩
  · intro h
    exact absurd ((remove_stale_exact
      [⟨"stale", "10.0.0.2", 7878, none, 70⟩, ⟨"fresh", "10.0.0.3", 7878, none, 71⟩]
      100 30 ⟨"stale", "10.0.0.2", 7878, none, 70⟩).1.mp h).2 (by decide)
  · exact (remove_stale_exact
      [⟨"stale", "10.0.0.2", 7878, none, 70⟩, ⟨"fresh", "10.0.0.3", 7878, none, 71⟩]
      100 30 ⟨"fresh", "10.0.0.3", 7878, none, 71⟩).1.mpr ⟨by decide, by decide⟩
  · exact (remove_stale_exact
      [⟨"stale", "10.0.0.2", 7878, none, 70⟩, ⟨"fresh", "10.0.0.3", 7878, none, 71⟩]
      100 30 ⟨"stale", "10.0.0.2", 7878, none, 70⟩).2 (by decide) (by decide)

/-- Every identity in the registry after an `upsert` is the upserted
identity or one already present. -/
theorem upsert_id_mem (reg : List Peer) (pid addr : String) (port : Nat)
    (host : Option String) (now : Nat) :
    ∀ q ∈ upsert reg pid addr port host now, q.id = pid ∨ ∃ p ∈ reg, q.id = p.id := by
  intro q hq
  rw [upsert] at hq
  split at hq
  · obtain ⟨p, hp, hqe⟩ := List.mem_map.mp hq
    right
    refine ⟨p, hp, ?_⟩
    by_cases hpe : p.id = pid
    · rw [← hqe]
      simp [hpe]
    · rw [← hqe]
      simp [hpe]
  · rcases List.mem_cons.mp hq with h | h
    · left
      rw [h]
    · right
      exact ⟨q, h, rfl⟩

/-- A chunk datagram never changes the registry. -/
theorem handle_message_chunk_registry (selfId : String) (st : EngineState)
    (c : Chunk) (now : Nat) :
    ((handle_message selfId st (NetMessage.chunkMsg c) now).1).registry = st.registry := by
  cases haccept : accept_chunk st.table c now with
  | mk t2 out => cases out <;> simp [handle_message, haccept]

/-- Processing events preserves absence of a given identity from the
registry. -/
theorem run_preserves_no_self (selfId : String) :
    ∀ (es : List EngineEvent) (st : EngineState),
      (∀ p ∈ st.registry, p.id ≠ selfId) →
      ∀ p ∈ (es.foldl (step_event selfId) st).registry, p.id ≠ selfId := by
  intro es
  induction es with
  | nil =>
      intro st h
      simpa using h
  | cons e rest ih =>
      intro st h
      rw [List.foldl_cons]
      apply ih
      cases e with
      | recv m now =>
          cases m with
          | discovery pid addr port host ts =>
              by_cases hpid : pid = selfId
              · simpa [step_event, handle_message, hpid] using h
              · simp only [step_event, handle_message, if_neg hpid]
                intro p hp
                rcases upsert_id_mem st.registry pid addr port host now p hp with
                  hid | ⟨p2, hp2, hid⟩
                · rw [hid]
                  exact hpid
                · rw [hid]
                  exact h p2 hp2
          | chunkMsg c =>
              simp only [step_event]
              rw [handle_message_chunk_registry]
              exact h
      | sweep now pt rt =>
          simp only [step_event, remove_stale]
          intro p hp
          exact h p (List.mem_filter.mp hp).1

/-- C7: a Discovery Announcement carrying this instance's own identity is
discarded by the Listener without calling `Registry.upsert` (the state is
unchanged), and consequently in every reachable state the instance's own
identity never appears in `list_peers`. -/
theorem self_announcement_discarded :
    (∀ (selfId : String) (st : EngineState) (addr : String) (port : Nat)
       (host : Option String) (ts now : Nat),
       handle_message selfId st (NetMessage.discovery selfId addr port host ts) now =
         (st, none)) ∧
    (∀ (selfId : String) (es : List EngineEvent) (p : Peer),
       p ∈ list_peers (run_events selfId es).registry → p.id ≠ selfId) := by
  constructor
  · intro selfId st addr port host ts now
    simp [handle_message]
  · intro selfId es p hp
    exact run_preserves_no_self selfId es initState (by intro q hq; cases hq) p hp

/-- Witness for C7: after receiving a self announcement and a foreign
announcement, the foreign peer's identity differs from our own (and the
self announcement left the initial state untouched). -/
theorem self_announcement_discarded_witness :
    handle_message "me" initState (NetMessage.discovery "me" "10.0.0.9" 7878 none 0) 0 =
      (initState, none) ∧
    (⟨"other", "10.0.0.2", 7878, none, 1⟩ : Peer).id ≠ "me" := by
  refine ⟨self_announcement_discarded.1 "me" initState "10.0.0.9" 7878 none 0 0, ?_⟩
  exact self_announcement_discarded.2 "me"
    [EngineEvent.recv (NetMessage.discovery "other" "10.0.0.2" 7878 none 1) 1]
    ⟨"other", "10.0.0.2", 7878, none, 1⟩ (by decide)

/-- C8: calling `send_text` with target "all peers" when the target set
resolved from the Registry is empty fails by returning the typed
NoPeersAvailable error to the caller (shown for payloads within the
ceiling; oversized payloads are already rejected as MessageTooLarge before
the target set is consulted). -/
theorem send_text_no_peers :
    ∀ (sid : String) (mid : Nat) (P : List Nat) (reg : List Peer)
      (now threshold ceiling : Nat),
      P.length ≤ ceiling →
      resolveTarget reg SendTarget.allPeers = [] →
      send_text sid mid P reg SendTarget.allPeers now threshold ceiling =
        Except.error SendError.noPeersAvailable := by
  intro sid mid P reg now threshold ceiling h1 h2
  have hnot : ¬(ceiling < P.length) := by omega
  simp only [send_text]
  rw [if_neg hnot]
  simp [h2]

/-- Witness for C8: a small payload sent to "all peers" with an empty
registry yields the NoPeersAvailable error. -/
theorem send_text_no_peers_witness :
    send_text "peer-a" 2 [7] [] SendTarget.allPeers 0 1100 262144 =
      Except.error SendError.noPeersAvailable :=
  send_text_no_peers "peer-a" 2 [7] [] 0 1100 262144 (by norm_num) rfl

/-- C9: in the textarea input handler (with the Tauri invoke binding
available): an event whose text equals the last sent value performs no
backend call at all; a changed text invokes `send_text_to_all_peers` first,
`get_peer_count` is only ever queried after that send, and with zero
discovered peers the send is still attempted and only then is the status set
to "No peers available - text not sent". -/
theorem textAreaInput_send_before_count :
    ∀ (env : UiEnv) (st : UiState) (cur : String),
      env.invokeAvailable = true →
      (cur = st.lastText → textAreaInput env st cur = (st, [])) ∧
      (cur ≠ st.lastText →
        ((textAreaInput env st cur).2.head? = some (UiCall.sendTextToAllPeers cur)) ∧
        (UiCall.getPeerCount ∈ (textAreaInput env st cur).2 →
          (textAreaInput env st cur).2 =
            [UiCall.sendTextToAllPeers cur, UiCall.getPeerCount]) ∧
        (env.sendFails = false → env.peerCount = 0 →
          textAreaInput env st cur =
            ({ lastText := cur, status := "No peers available - text not sent" },
             [UiCall.sendTextToAllPeers cur, UiCall.getPeerCount]))) := by
  intro env st cur hinv
  constructor
  · intro heq
    rw [textAreaInput, if_neg (fun hc => hc.1 heq)]
  · intro hne
    have hcond : (cur ≠ st.lastText ∧ env.invokeAvailable) := ⟨hne, by rw [hinv]⟩
    refine ⟨?_, ?_, ?_⟩
    · rw [textAreaInput, if_pos hcond]
      by_cases hf : env.sendFails
      · simp [hf]
      · by_cases hz : env.peerCount = 0
        · simp [hf, hz]
        · simp [hf, hz]
    · intro hmem
      rw [textAreaInput, if_pos hcond]
      rw [textAreaInput, if_pos hcond] at hmem
      by_cases hf : env.sendFails
      · simp [hf] at hmem
      · by_cases hz : env.peerCount = 0
        · simp [hf, hz]
        · simp [hf, hz]
    · intro hf hz
      rw [textAreaInput, if_pos hcond]
      simp [hf, hz]

/-- Witness for C9: a changed text with zero peers is still sent first, and
the no-peers status follows the send and the count query. -/
theorem textAreaInput_send_before_count_witness :
    textAreaInput ⟨true, false, "", 0⟩ ⟨"", "Ready"⟩ "hello" =
      ({ lastText := "hello", status := "No peers available - text not sent" },
       [UiCall.sendTextToAllPeers "hello", UiCall.getPeerCount]) :=
  ((textAreaInput_send_before_count ⟨true, false, "", 0⟩ ⟨"", "Ready"⟩ "hello" rfl).2
    (by decide)).2.2 rfl rfl

/-- Bound, shape, exhaustive-failure characterisation and exact count of the
`checkTauri` polling loop, by induction on the remaining attempts. -/
theorem checkTauri_spec (env : TauriEnv) :
    ∀ (fuel attempt : Nat), 1 ≤ fuel →
      (checkTauri env attempt fuel).2 ≤ fuel ∧
      ((checkTauri env attempt fuel).1 = WaitResult.resolved ∨
       (checkTauri env attempt fuel).1 = WaitResult.rejected "Tauri APIs not available") ∧
      ((checkTauri env attempt fuel).1 = WaitResult.rejected "Tauri APIs not available" ↔
       ∀ a, attempt + 1 ≤ a → a ≤ attempt + fuel → probeAt env a = false) ∧
      ((checkTauri env attempt fuel).1 = WaitResult.rejected "Tauri APIs not available" →
       (checkTauri env attempt fuel).2 = fuel) := by
  intro fuel
  induction fuel with
  | zero =>
      intro attempt h
      exact absurd h (by omega)
  | succ rem ih =>
      intro attempt _
      by_cases hp : probeAt env (attempt + 1) = true
      · rw [checkTauri, if_pos hp]
        refine ⟨by omega, Or.inl rfl, ?_, ?_⟩
        · constructor
          · intro hcontra
            cases hcontra
          · intro hall
            have := hall (attempt + 1) (by omega) (by omega)
            rw [hp] at this
            cases this
        · intro hcontra
          cases hcontra
      · have hp2 : probeAt env (attempt + 1) = false := by
          cases hpc : probeAt env (attempt + 1)
          · rfl
          · exact absurd hpc hp
        by_cases hrem : rem = 0
        · subst hrem
          rw [checkTauri, if_neg hp, if_pos rfl]
          refine ⟨by omega, Or.inr rfl, ?_, fun _ => rfl⟩
          constructor
          · intro _ a ha1 ha2
            have haeq : a = attempt + 1 := by omega
            rw [haeq]
            exact hp2
          · intro _
            rfl
        · have ihr := ih (attempt + 1) (by omega)
          have h1 : (checkTauri env attempt (rem + 1)).1 =
              (checkTauri env (attempt + 1) rem).1 := by
            rw [checkTauri, if_neg hp, if_neg hrem]
          have h2 : (checkTauri env attempt (rem + 1)).2 =
              (checkTauri env (attempt + 1) rem).2 + 1 := by
            rw [checkTauri, if_neg hp, if_neg hrem]
          rw [h1, h2]
          refine ⟨by have := ihr.1; omega, ihr.2.1, ?_, ?_⟩
          · constructor
            · intro hrej a ha1 ha2
              by_cases hfirst : a = attempt + 1
              · rw [hfirst]
                exact hp2
              · exact ihr.2.2.1.mp hrej a (by omega) (by omega)
            · intro hall
              exact ihr.2.2.1.mpr (fun a ha1 ha2 => hall a (by omega) (by omega))
          · intro hrej
            have hc := ihr.2.2.2 hrej
            omega

/-- C10: `waitForTauri` always terminates: its polling loop performs at most
`maxAttempts = 50` checks, the promise either resolves (when one of the
probed Tauri API locations exists at some attempt) or rejects with the
error "Tauri APIs not available", it rejects exactly when all 50 probes
fail, and in that case exactly 50 checks were performed — it never polls
unboundedly. -/
theorem waitForTauri_terminates :
    ∀ env : TauriEnv,
      (waitForTauri env).2 ≤ 50 ∧
      ((waitForTauri env).1 = WaitResult.resolved ∨
       (waitForTauri env).1 = WaitResult.rejected "Tauri APIs not available") ∧
      ((waitForTauri env).1 = WaitResult.rejected "Tauri APIs not available" ↔
       ∀ a, 1 ≤ a → a ≤ 50 → probeAt env a = false) ∧
      ((waitForTauri env).1 = WaitResult.rejected "Tauri APIs not available" →
       (waitForTauri env).2 = 50) := by
  intro env
  have h := checkTauri_spec env 50 0 (by omega)
  simpa [waitForTauri] using h

/-- Witness for C10: in an environment where no Tauri API location ever
appears, `waitForTauri` rejects with "Tauri APIs not available" after
exactly 50 checks. -/
theorem waitForTauri_terminates_witness :
    (waitForTauri ⟨fun _ => false, fun _ => false, fun _ => false⟩).1 =
      WaitResult.rejected "Tauri APIs not available" ∧
    (waitForTauri ⟨fun _ => false, fun _ => false, fun _ => false⟩).2 = 50 := by
  have hrej := (waitForTauri_terminates
    ⟨fun _ => false, fun _ => false, fun _ => false⟩).2.2.1.mpr
    (fun a _ _ => rfl)
  exact ⟨hrej, (waitForTauri_terminates
    ⟨fun _ => false, fun _ => false, fun _ => false⟩).2.2.2 hrej⟩

end LanShare

